import Mathlib

/-!
Verification of the macrobell price-change scraper pipeline
(`macrobell_scraper_db.py`), shallowly embedded in Lean.

The embedding models:
- the sqlite database (`stores` and `prices` tables) together with the
  connection's pending (executed but uncommitted) statements — reads on the
  same connection see pending writes, `commit` makes them durable, and
  closing the connection without a commit discards them;
- the per-candidate processing of `main` (suffix filter, price stripping and
  parsing, per-store dedup via `seen_items_for_store`, change detection
  against `get_latest_price`, conditional INSERT);
- the per-store loop (crawl outcome, the `continue` on empty crawls and on
  per-store exceptions, the metadata UPDATE and `conn.commit()` after each
  successful store) and the run over all stores in `store_id` order.

Prices are decimal values parsed from text and are modelled as rationals;
dates as naturals (ISO date strings compare like naturals). Python's
`float(...)` on a string of digits and dots succeeds exactly when the string
holds at least one digit and at most one dot, which is how `parsePrice`
is defined; a parse failure is the `ValueError` that aborts a store's
processing through the per-store `except` handler.
-/

namespace Macrobell

/-- One row of the `prices` table: (store_id, item_name, price, scrape_date). -/
structure Row where
  store : Nat
  item : String
  price : ℚ
  date : Nat
deriving DecidableEq

/-- A statement executed on the connection but not yet committed:
an INSERT into `prices` or an UPDATE of a store's `last_scraped_date`. -/
inductive Op where
  | insertPrice (r : Row)
  | updateStore (store : Nat) (date : Nat)
deriving DecidableEq

/-- Committed database state: the `stores` table (store_id,
last_scraped_date) and the `prices` table. -/
structure DB where
  stores : List (Nat × Option Nat)
  prices : List Row
deriving DecidableEq

/-- The sqlite connection: committed state plus the pending uncommitted
statements, in execution order. -/
structure Conn where
  db : DB
  pending : List Op
deriving DecidableEq

/-- The rows inserted by a list of pending statements, in order. -/
def pendingInserts (ops : List Op) : List Row :=
  ops.filterMap fun op =>
    match op with
    | .insertPrice r => some r
    | .updateStore _ _ => none

/-- The `prices` rows visible to a read on this connection: committed rows
followed by the connection's own pending inserts (sqlite reads on the
writing connection see its uncommitted writes). -/
def visiblePrices (c : Conn) : List Row :=
  c.db.prices ++ pendingInserts c.pending

/-- Execute one statement on the connection (it becomes pending). -/
def execute (c : Conn) (op : Op) : Conn :=
  ⟨c.db, c.pending ++ [op]⟩

/-- Apply one statement to the committed state. -/
def applyOp (db : DB) : Op → DB
  | .insertPrice r => { db with prices := db.prices ++ [r] }
  | .updateStore s d =>
      { db with stores := db.stores.map fun p => if p.1 = s then (p.1, some d) else p }

/-- Commit the connection's pending statements. -/
def commit (c : Conn) : Conn :=
  ⟨c.pending.foldl applyOp c.db, []⟩

/-- SELECT store_id FROM stores ORDER BY store_id. -/
def get_stores_to_scrape (db : DB) : List Nat :=
  List.insertionSort (· ≤ ·) (db.stores.map Prod.fst)

/-- Fold step of `get_latest_price`: keep the matching row with the greatest
`scrape_date`. sqlite leaves the relative order of rows with equal
`scrape_date` under `ORDER BY scrape_date DESC LIMIT 1` unspecified; the
engine the source runs on returns the first such row in table order, which
is what this fold keeps. The run theorems below only consult the latest
price in histories whose dates are strictly increasing, where no tie can
occur and the unspecified order is irrelevant. -/
def latestUpd (s : Nat) (it : String) (acc : Option Row) (r : Row) : Option Row :=
  if r.store = s ∧ r.item = it then
    match acc with
    | none => some r
    | some b => if b.date < r.date then some r else some b
  else acc

/-- SELECT price FROM prices WHERE store_id = ? AND item_name = ?
ORDER BY scrape_date DESC LIMIT 1 — reading through the connection, so
pending inserts are visible. -/
def get_latest_price (c : Conn) (store_id : Nat) (item_name : String) : Option ℚ :=
  ((visiblePrices c).foldl (latestUpd store_id item_name) none).map Row.price

/-- EXCLUDED_ITEM_SUFFIXES from the source. -/
def EXCLUDED_ITEM_SUFFIXES : List String :=
  ["box", "meal", "combo", "sauce", "packet", "salsa", "pack", "meal for 2", "meal for 4"]

/-- ASCII lowering of one character, as Python's `str.lower` acts on the
ASCII item names of this scraper. -/
def lowerChar (c : Char) : Char :=
  if 65 ≤ c.toNat ∧ c.toNat ≤ 90 then Char.ofNat (c.toNat + 32) else c

/-- Python's `name.lower()`. -/
def lowerStr (s : String) : String :=
  String.mk (s.data.map lowerChar)

/-- Python's `name.lower().endswith(suf)`: the lowered name ends with the
given string. -/
def lowerEndsWith (name suf : String) : Bool :=
  List.isSuffixOf suf.data (lowerStr name).data

/-- The item filter: `any(name.lower().endswith(suffix) for suffix in
EXCLUDED_ITEM_SUFFIXES)`. -/
def excludedItem (name : String) : Bool :=
  EXCLUDED_ITEM_SUFFIXES.any fun suf => lowerEndsWith name suf

/-- re.sub(r"[^\d.]", "", price_str): keep only digits and dots. -/
def stripPrice (s : String) : String :=
  String.mk (s.data.filter fun c => c.isDigit || c = '.')

/-- Numeric value of a list of decimal digit characters. -/
def digitsVal (l : List Char) : Nat :=
  l.foldl (fun a c => a * 10 + (c.toNat - 48)) 0

/-- Python's `float(s)` on a string made of digits and dots: it succeeds
exactly when there is at least one digit and at most one dot, and then
denotes the usual decimal value. On any other string of this character
set (for example "5.99.99" or "...") it raises `ValueError`, modelled
as `none`. -/
def parsePrice (s : String) : Option ℚ :=
  let cs := s.data
  if (cs.all fun c => c.isDigit || c = '.') ∧ cs.any Char.isDigit ∧ cs.count '.' ≤ 1 then
    let intPart := cs.takeWhile (· ≠ '.')
    let fracPart := (cs.dropWhile (· ≠ '.')).drop 1
    some ((digitsVal intPart * 10 ^ fracPart.length + digitsVal fracPart : ℕ) /
      ((10 ^ fracPart.length : ℕ) : ℚ))
  else none

/-- The change decision at line 217 of the source:
`last_price is None or abs(last_price - price_float) >= 0.001`. -/
def is_change (last_price : Option ℚ) (price_float : ℚ) : Bool :=
  match last_price with
  | none => true
  | some p => decide ((1 : ℚ) / 1000 ≤ |p - price_float|)

/-- The sub-pattern `(\$[\d\.]+)` of the extractor's regex: a dollar sign
followed by one or more characters, each a digit or a dot. -/
def priceTokenMatches (s : String) : Bool :=
  match s.data with
  | '$' :: c :: rest => (c :: rest).all fun ch => ch.isDigit || ch = '.'
  | _ => false

/-- Mutable state of one store's processing loop: the connection, the
per-store `seen_items_for_store` set, and the two report counters. -/
structure LoopState where
  conn : Conn
  seen : List String
  items_processed : Nat
  prices_changed : Nat
deriving DecidableEq

/-- Processing of one extracted (name, price_str) candidate, lines 201-223
of the source. `Except.error` is the `ValueError` raised by `float(...)`
on a stripped-but-malformed token; the payload carries the state at the
raise so the per-store handler can be modelled. -/
def processCandidate (today : Nat) (store_id : Nat) (st : LoopState)
    (name : String) (price_str : String) : Except LoopState LoopState :=
  let st := { st with items_processed := st.items_processed + 1 }
  if excludedItem name then .ok st
  else
    let price_float_str := stripPrice price_str
    if price_float_str = "" then .ok st
    else
      match parsePrice price_float_str with
      | none => .error st
      | some price_float =>
        if name ∈ st.seen then .ok st
        else
          let st := { st with seen := name :: st.seen }
          let last_price := get_latest_price st.conn store_id name
          if is_change last_price price_float then
            .ok { st with
                  conn := execute st.conn (.insertPrice ⟨store_id, name, price_float, today⟩),
                  prices_changed := st.prices_changed + 1 }
          else .ok st

/-- Process a list of candidates in order, stopping at the first raise. -/
def processList (today : Nat) (store_id : Nat) (st : LoopState) :
    List (String × String) → Except LoopState LoopState
  | [] => .ok st
  | (n, p) :: rest =>
    match processCandidate today store_id st n p with
    | .ok st' => processList today store_id st' rest
    | .error st' => .error st'

/-- The state an `Except`-valued processing step ends in, whether it
returned normally or raised. -/
def outState (e : Except LoopState LoopState) : LoopState :=
  match e with
  | .ok st => st
  | .error st => st

/-- Outcome of `app.crawl` for one store: a raised provider error, or a
list of pages, each page being its extracted list of (name, price-text)
candidates (pages without markdown contribute no candidates). -/
inductive FetchOutcome where
  | fetchError
  | pages (ps : List (List (String × String)))

/-- One iteration of the per-store loop (lines 148-237 of the source):
a crawl error or an empty page list hits `continue` before the metadata
update, leaving the connection as it was; an extraction raise is caught by
the per-store `except` which also `continue`s, keeping whatever statements
were already executed pending but uncommitted; otherwise the store's
`last_scraped_date` update is executed and the connection committed. -/
def runStore (fetch : Nat → FetchOutcome) (today : Nat) (conn : Conn) (store_id : Nat) : Conn :=
  match fetch store_id with
  | .fetchError => conn
  | .pages ps =>
    if ps = [] then conn
    else
      match processList today store_id ⟨conn, [], 0, 0⟩ ps.flatten with
      | .error st' => st'.conn
      | .ok st' => commit (execute st'.conn (.updateStore store_id today))

/-- One whole run of `main` after successful configuration: load the store
ids, return at once if there are none, otherwise fold the per-store loop
over the ids and close the connection (closing without a commit discards
any still-pending statements). -/
def runAll (fetch : Nat → FetchOutcome) (today : Nat) (db : DB) : DB :=
  let ids := get_stores_to_scrape db
  if ids = [] then db
  else (ids.foldl (runStore fetch today) ⟨db, []⟩).db

/-- The rows of the given (store, item) pair, in table order. -/
def pairRows (rows : List Row) (s : Nat) (it : String) : List Row :=
  rows.filter fun r => decide (r.store = s ∧ r.item = it)

/-- Adjacency relation of the history invariant: dates do not decrease and
successive prices differ by at least 0.001. -/
def rowStep (a b : Row) : Prop :=
  a.date ≤ b.date ∧ (1 : ℚ) / 1000 ≤ |a.price - b.price|

instance (a b : Row) : Decidable (rowStep a b) :=
  inferInstanceAs (Decidable (_ ∧ _))

/-- The spec's invariant: per (location, item) pair the persisted rows are
monotonically ordered by date and adjacent rows differ in price by at
least 0.001 (the first row of a pair is unconstrained). -/
def PriceInvariant (rows : List Row) : Prop :=
  ∀ s it, List.Chain' rowStep (pairRows rows s it)

/-- Strict adjacency relation: dates strictly increase and successive
prices differ by at least 0.001. Under it a pair's history has at most one
row per date, so `ORDER BY scrape_date DESC LIMIT 1` is unambiguous. -/
def rowStepStrict (a b : Row) : Prop :=
  a.date < b.date ∧ (1 : ℚ) / 1000 ≤ |a.price - b.price|

instance (a b : Row) : Decidable (rowStepStrict a b) :=
  inferInstanceAs (Decidable (_ ∧ _))

/-- The strict form of the history invariant: per (location, item) pair the
persisted rows are strictly increasing in date and adjacent rows differ in
price by at least 0.001. -/
def StrictPriceInvariant (rows : List Row) : Prop :=
  ∀ s it, List.Chain' rowStepStrict (pairRows rows s it)

/-- Invariant carried across the per-store fold of a run: the rows visible
on the connection satisfy the strict history invariant, none is dated after
the run date, and any row dated on the run date was inserted by one of the
already-processed stores of this run. -/
def RunInv (today : Nat) (processed : List Nat) (c : Conn) : Prop :=
  StrictPriceInvariant (visiblePrices c) ∧
  (∀ r ∈ visiblePrices c, r.date ≤ today) ∧
  (∀ r ∈ visiblePrices c, r.date = today → r.store ∈ processed)

/-- Invariant carried through one store's candidate loop: as `RunInv`, but
a run-date row may also be one of this pass's own inserts, whose item name
was then added to the pass's seen-set. -/
def PassInv (today : Nat) (processed : List Nat) (s : Nat) (st : LoopState) : Prop :=
  StrictPriceInvariant (visiblePrices st.conn) ∧
  (∀ r ∈ visiblePrices st.conn, r.date ≤ today) ∧
  (∀ r ∈ visiblePrices st.conn, r.date = today →
    r.store ∈ processed ∨ (r.store = s ∧ r.item ∈ st.seen))

/-- Number of rows for one (store, item) pair. -/
def countFor (rows : List Row) (s : Nat) (it : String) : Nat :=
  (pairRows rows s it).length

/-- Store for the C1 counterexample: its history for (1, "Taco") is
date-ordered and adjacent prices differ by 1, yet one row is dated in the
future of the run below. -/
def cx1DB : DB :=
  ⟨[(1, none)], [⟨1, "Taco", 1, 1⟩, ⟨1, "Taco", 2, 300⟩]⟩

/-- Crawl outcome for the C1 counterexample: one page, one candidate. -/
def cx1Fetch : Nat → FetchOutcome :=
  fun _ => .pages [[("Taco", "$1.00")]]

/-- Store for the date-tie counterexample: the (1, "Taco") history holds
two rows with the same scrape_date (10 then 10.5), as two same-day runs
produce; adjacent prices differ by 0.5. -/
def cxTieDB : DB :=
  ⟨[(1, none)], [⟨1, "Taco", 10, 50⟩, ⟨1, "Taco", 21 / 2, 50⟩]⟩

/-- Crawl outcome for the date-tie counterexample: one candidate priced
0.0004 away from the later tied row 10.5. -/
def cxTieFetch : Nat → FetchOutcome :=
  fun _ => .pages [[("Taco", "$10.5004")]]

/-- Store for the C2 failing input: two registered stores, no history. -/
def cx2DB : DB :=
  ⟨[(1, none), (2, none)], []⟩

/-- Crawl outcome for the C2 failing input: store 1 yields one good
candidate and then one whose price text raises in `float` (so store 1's
processing aborts after one uncommitted INSERT); store 2 yields a page
with no candidates and reaches its UPDATE and commit. -/
def cx2Fetch : Nat → FetchOutcome :=
  fun i => if i = 1
    then .pages [[("Taco", "$1.00"), ("Burrito", "$5.99.99")]]
    else .pages [[]]

/-- Store for the C3 counterexample: one registered store, no history. -/
def cx3DB : DB :=
  ⟨[(1, none)], []⟩

/-- Crawl outcome for the C3 counterexample: a successful fetch whose
extraction raises after one INSERT was executed. -/
def cx3Fetch : Nat → FetchOutcome :=
  fun _ => .pages [[("Taco", "$1.00"), ("Burrito", "$5.99.99")]]

theorem pendingInserts_append (a b : List Op) :
    pendingInserts (a ++ b) = pendingInserts a ++ pendingInserts b := by
  simp [pendingInserts, List.filterMap_append]

theorem visible_execute_insert (c : Conn) (r : Row) :
    visiblePrices (execute c (.insertPrice r)) = visiblePrices c ++ [r] := by
  simp [visiblePrices, execute, pendingInserts_append, pendingInserts]

theorem visible_execute_update (c : Conn) (s d : Nat) :
    visiblePrices (execute c (.updateStore s d)) = visiblePrices c := by
  simp [visiblePrices, execute, pendingInserts_append, pendingInserts]

theorem prices_foldl_applyOp (ops : List Op) (db : DB) :
    (ops.foldl applyOp db).prices = db.prices ++ pendingInserts ops := by
  induction ops generalizing db with
  | nil => simp [pendingInserts]
  | cons op rest ih =>
    cases op with
    | insertPrice r => simp [applyOp, ih, pendingInserts]
    | updateStore s d => simp [applyOp, ih, pendingInserts]

theorem visible_commit (c : Conn) :
    visiblePrices (commit c) = visiblePrices c := by
  simp [visiblePrices, commit, prices_foldl_applyOp, pendingInserts]

theorem committed_app_visible (c : Conn) :
    visiblePrices c = c.db.prices ++ pendingInserts c.pending := rfl

theorem pairRows_append (a b : List Row) (s : Nat) (it : String) :
    pairRows (a ++ b) s it = pairRows a s it ++ pairRows b s it := by
  simp [pairRows, List.filter_append]

theorem latest_foldl_restrict (s : Nat) (it : String) (v : List Row) (acc : Option Row) :
    v.foldl (latestUpd s it) acc = (pairRows v s it).foldl (latestUpd s it) acc := by
  induction v generalizing acc with
  | nil => simp [pairRows]
  | cons r rest ih =>
    by_cases h : r.store = s ∧ r.item = it
    · simp only [pairRows, List.filter_cons, decide_eq_true_eq] at *
      rw [if_pos h, List.foldl_cons, List.foldl_cons, ih]
    · have hupd : latestUpd s it acc r = acc := by simp [latestUpd, h]
      simp only [pairRows, List.filter_cons, decide_eq_true_eq] at *
      rw [if_neg h, List.foldl_cons, hupd, ih]

theorem latest_foldl_sorted_aux (s : Nat) (it : String) (rest : List Row) (b : Row)
    (hmem : ∀ r ∈ rest, r.store = s ∧ r.item = it)
    (hsort : List.Chain' (fun a c : Row => a.date < c.date) (b :: rest)) :
    rest.foldl (latestUpd s it) (some b) = some (rest.getLastD b) := by
  induction rest generalizing b with
  | nil => simp
  | cons r rest ih =>
    have hr : r.store = s ∧ r.item = it := hmem r (by simp)
    have hbd : b.date < r.date := (List.chain'_cons.mp hsort).1
    have hupd : latestUpd s it (some b) r = some r := by
      simp [latestUpd, hr, hbd]
    rw [List.foldl_cons, hupd, List.getLastD_cons]
    exact ih r (fun x hx => hmem x (by simp [hx])) (List.chain'_cons.mp hsort).2

theorem latest_foldl_sorted (s : Nat) (it : String) (L : List Row)
    (hmem : ∀ r ∈ L, r.store = s ∧ r.item = it)
    (hsort : List.Chain' (fun a c : Row => a.date < c.date) L) :
    L.foldl (latestUpd s it) none = L.getLast? := by
  cases L with
  | nil => simp
  | cons a rest =>
    have ha : a.store = s ∧ a.item = it := hmem a (by simp)
    have hstep : latestUpd s it none a = some a := by simp [latestUpd, ha]
    rw [List.foldl_cons, hstep, List.getLast?_cons, ← List.getLastD_eq_getLast?]
    exact latest_foldl_sorted_aux s it rest a (fun x hx => hmem x (by simp [hx])) hsort

theorem mem_pairRows {rows : List Row} {s : Nat} {it : String} {r : Row} :
    r ∈ pairRows rows s it ↔ r ∈ rows ∧ r.store = s ∧ r.item = it := by
  simp [pairRows]

theorem get_latest_price_eq_getLast (c : Conn) (s : Nat) (it : String)
    (hsort : List.Chain' (fun a b : Row => a.date < b.date)
      (pairRows (visiblePrices c) s it)) :
    get_latest_price c s it = (pairRows (visiblePrices c) s it).getLast?.map Row.price := by
  rw [get_latest_price, latest_foldl_restrict, latest_foldl_sorted]
  · exact fun r hr => (mem_pairRows.mp hr).2
  · exact hsort

theorem parsePrice_empty : parsePrice "" = none := rfl

theorem is_change_some_true {q p : ℚ} (h : is_change (some q) p = true) :
    (1 : ℚ) / 1000 ≤ |q - p| :=
  of_decide_eq_true h

theorem mem_of_mem_getLast? {l : List Row} {x : Row} (h : x ∈ l.getLast?) : x ∈ l := by
  obtain ⟨hne, rfl⟩ := List.mem_getLast?_eq_getLast h
  exact List.getLast_mem hne

theorem strict_invariant_insert_step (v : List Row) (today s : Nat) (it : String) (p : ℚ)
    (hInv : StrictPriceInvariant v)
    (hlt : ∀ r ∈ pairRows v s it, r.date < today)
    (hchg : is_change ((pairRows v s it).getLast?.map Row.price) p = true) :
    StrictPriceInvariant (v ++ [⟨s, it, p, today⟩]) := by
  intro s' it'
  rw [pairRows_append]
  by_cases h : s = s' ∧ it = it'
  · obtain ⟨rfl, rfl⟩ := h
    have hsingle : pairRows [(⟨s, it, p, today⟩ : Row)] s it = [⟨s, it, p, today⟩] := by
      simp [pairRows]
    rw [hsingle]
    refine (hInv s it).append (List.chain'_singleton _) ?_
    intro x hx y hy
    simp only [List.head?_cons, Option.mem_def, Option.some.injEq] at hy
    subst hy
    have hxmem : x ∈ pairRows v s it := mem_of_mem_getLast? hx
    have hlast : (pairRows v s it).getLast? = some x := hx
    rw [hlast] at hchg
    exact ⟨hlt x hxmem, is_change_some_true hchg⟩
  · have hsingle : pairRows [(⟨s, it, p, today⟩ : Row)] s' it' = [] := by
      simp only [pairRows, List.filter_cons, List.filter_nil, decide_eq_true_eq]
      rw [if_neg]
      intro hc
      exact h hc
    rw [hsingle, List.append_nil]
    exact hInv s' it'

theorem processCandidate_cases (today s : Nat) (st : LoopState) (n p : String) :
    (processCandidate today s st n p = .ok { st with items_processed := st.items_processed + 1 } ∧
       (excludedItem n = true ∨ stripPrice p = "" ∨ n ∈ st.seen)) ∨
    (processCandidate today s st n p =
        .error { st with items_processed := st.items_processed + 1 } ∧
       stripPrice p ≠ "" ∧ parsePrice (stripPrice p) = none) ∨
    (∃ v, excludedItem n = false ∧ stripPrice p ≠ "" ∧
       parsePrice (stripPrice p) = some v ∧ n ∉ st.seen ∧
       ((is_change (get_latest_price st.conn s n) v = true ∧
           processCandidate today s st n p = .ok { st with
             conn := execute st.conn (.insertPrice ⟨s, n, v, today⟩),
             seen := n :: st.seen,
             items_processed := st.items_processed + 1,
             prices_changed := st.prices_changed + 1 }) ∨
        (is_change (get_latest_price st.conn s n) v = false ∧
           processCandidate today s st n p = .ok { st with
             seen := n :: st.seen,
             items_processed := st.items_processed + 1 }))) := by
  unfold processCandidate
  by_cases h1 : excludedItem n
  · exact Or.inl ⟨by simp [h1], Or.inl h1⟩
  · simp only [h1, Bool.false_eq_true, if_false]
    by_cases h2 : stripPrice p = ""
    · exact Or.inl ⟨by simp [h2], Or.inr (Or.inl h2)⟩
    · simp only [h2, if_false]
      rcases hp : parsePrice (stripPrice p) with _ | v
      · exact Or.inr (Or.inl ⟨by simp, h2, rfl⟩)
      · by_cases h3 : n ∈ st.seen
        · exact Or.inl ⟨by simp [h3], Or.inr (Or.inr h3)⟩
        · right; right
          refine ⟨v, by simp [h1], h2, rfl, h3, ?_⟩
          by_cases h4 : is_change (get_latest_price st.conn s n) v
          · exact Or.inl ⟨h4, by simp [h3, h4]⟩
          · exact Or.inr ⟨by simpa using h4, by simp [h3, h4]⟩

theorem passInv_processCandidate (today : Nat) (processed : List Nat) (s : Nat)
    (st : LoopState) (n p : String)
    (hs : s ∉ processed) (h : PassInv today processed s st) :
    PassInv today processed s (outState (processCandidate today s st n p)) := by
  obtain ⟨h1, h2, h3⟩ := h
  rcases processCandidate_cases today s st n p with
    ⟨heq, _⟩ | ⟨heq, _⟩ | ⟨v, _, _, _, hnot, ⟨hch, heq⟩ | ⟨_, heq⟩⟩
  · rw [heq]; exact ⟨h1, h2, h3⟩
  · rw [heq]; exact ⟨h1, h2, h3⟩
  · rw [heq]
    have hpairlt : ∀ r ∈ pairRows (visiblePrices st.conn) s n, r.date < today := by
      intro r hr
      obtain ⟨hrv, hrs, hrn⟩ := mem_pairRows.mp hr
      rcases Nat.lt_or_ge r.date today with hlt | hge
      · exact hlt
      · have heqd : r.date = today := le_antisymm (h2 r hrv) hge
        rcases h3 r hrv heqd with hmem | ⟨_, hseenmem⟩
        · exact absurd (hrs ▸ hmem) hs
        · exact absurd (hrn ▸ hseenmem) hnot
    refine ⟨?_, ?_, ?_⟩
    · show StrictPriceInvariant (visiblePrices (execute st.conn (.insertPrice ⟨s, n, v, today⟩)))
      rw [visible_execute_insert]
      apply strict_invariant_insert_step _ today s n v h1 hpairlt
      rw [← get_latest_price_eq_getLast st.conn s n ((h1 s n).imp fun _ _ hh => hh.1)]
      exact hch
    · show ∀ r ∈ visiblePrices (execute st.conn (.insertPrice ⟨s, n, v, today⟩)), r.date ≤ today
      rw [visible_execute_insert]
      intro r hr
      rcases List.mem_append.mp hr with hr | hr
      · exact h2 r hr
      · simp only [List.mem_singleton] at hr
        subst hr
        exact le_refl _
    · show ∀ r ∈ visiblePrices (execute st.conn (.insertPrice ⟨s, n, v, today⟩)),
        r.date = today → r.store ∈ processed ∨ (r.store = s ∧ r.item ∈ n :: st.seen)
      rw [visible_execute_insert]
      intro r hr hd
      rcases List.mem_append.mp hr with hr | hr
      · rcases h3 r hr hd with hmem | ⟨hs', hn'⟩
        · exact Or.inl hmem
        · exact Or.inr ⟨hs', List.mem_cons_of_mem _ hn'⟩
      · simp only [List.mem_singleton] at hr
        subst hr
        exact Or.inr ⟨rfl, List.mem_cons_self _ _⟩
  · rw [heq]
    exact ⟨h1, h2, fun r hr hd =>
      (h3 r hr hd).imp id fun hh => ⟨hh.1, List.mem_cons_of_mem _ hh.2⟩⟩

theorem passInv_processList (today : Nat) (processed : List Nat) (s : Nat)
    (cs : List (String × String)) (st : LoopState)
    (hs : s ∉ processed) (h : PassInv today processed s st) :
    PassInv today processed s (outState (processList today s st cs)) := by
  induction cs generalizing st with
  | nil => exact h
  | cons c rest ih =>
    obtain ⟨n, p⟩ := c
    have hstep := passInv_processCandidate today processed s st n p hs h
    rw [processList]
    rcases hc : processCandidate today s st n p with st' | st'
    · rw [hc] at hstep
      exact hstep
    · rw [hc] at hstep
      exact ih st' hstep

theorem runInv_runStore (fetch : Nat → FetchOutcome) (today : Nat) (processed : List Nat)
    (c : Conn) (s : Nat)
    (hs : s ∉ processed) (h : RunInv today processed c) :
    RunInv today (s :: processed) (runStore fetch today c s) := by
  have hweak : ∀ c', RunInv today processed c' → RunInv today (s :: processed) c' :=
    fun c' hc => ⟨hc.1, hc.2.1, fun r hr hd => List.mem_cons_of_mem _ (hc.2.2 r hr hd)⟩
  have hconv : ∀ st' : LoopState, PassInv today processed s st' →
      RunInv today (s :: processed) st'.conn := by
    intro st' hp
    refine ⟨hp.1, hp.2.1, fun r hr hd => ?_⟩
    rcases hp.2.2 r hr hd with hm | ⟨hst, _⟩
    · exact List.mem_cons_of_mem _ hm
    · rw [hst]; exact List.mem_cons_self _ _
  rcases hf : fetch s with _ | ps
  · simp only [runStore, hf]
    exact hweak c h
  · simp only [runStore, hf]
    by_cases hps : ps = []
    · rw [if_pos hps]; exact hweak c h
    · rw [if_neg hps]
      have h0 : PassInv today processed s ⟨c, [], 0, 0⟩ :=
        ⟨h.1, h.2.1, fun r hr hd => Or.inl (h.2.2 r hr hd)⟩
      have hlist := passInv_processList today processed s ps.flatten ⟨c, [], 0, 0⟩ hs h0
      rcases hpl : processList today s ⟨c, [], 0, 0⟩ ps.flatten with st' | st'
      · rw [hpl] at hlist
        exact hconv st' hlist
      · rw [hpl] at hlist
        have hr := hconv st' hlist
        refine ⟨?_, ?_, ?_⟩
        · show StrictPriceInvariant (visiblePrices (commit (execute st'.conn
            (.updateStore s today))))
          rw [visible_commit, visible_execute_update]
          exact hr.1
        · show ∀ r ∈ visiblePrices (commit (execute st'.conn (.updateStore s today))),
            r.date ≤ today
          rw [visible_commit, visible_execute_update]
          exact hr.2.1
        · show ∀ r ∈ visiblePrices (commit (execute st'.conn (.updateStore s today))),
            r.date = today → r.store ∈ s :: processed
          rw [visible_commit, visible_execute_update]
          exact hr.2.2

theorem runInv_foldl (fetch : Nat → FetchOutcome) (today : Nat) :
    ∀ (ids : List Nat) (processed : List Nat) (c : Conn),
      ids.Nodup → (∀ i ∈ ids, i ∉ processed) → RunInv today processed c →
      ∃ pr : List Nat, RunInv today pr (ids.foldl (runStore fetch today) c)
  | [], processed, _, _, _, h => ⟨processed, h⟩
  | i :: rest, processed, c, hnd, hdis, h => by
    rw [List.foldl_cons]
    have hstep := runInv_runStore fetch today processed c i (hdis i (by simp)) h
    refine runInv_foldl fetch today rest (i :: processed) _
      (List.nodup_cons.mp hnd).2 ?_ hstep
    intro j hj hmem
    rcases List.mem_cons.mp hmem with he | hp
    · exact (List.nodup_cons.mp hnd).1 (he ▸ hj)
    · exact hdis j (List.mem_cons_of_mem _ hj) hp

theorem strict_implies_price_invariant {rows : List Row}
    (h : StrictPriceInvariant rows) : PriceInvariant rows :=
  fun s it => (h s it).imp fun _ _ hh => ⟨le_of_lt hh.1, hh.2⟩

theorem eval_excluded_Taco : excludedItem "Taco" = false := by decide

theorem eval_excluded_Burrito : excludedItem "Burrito" = false := by decide

theorem eval_strip_100 : stripPrice "$1.00" = "1.00" := by decide

theorem eval_parse_100 : parsePrice "1.00" = some 1 := by
  have h1 : digitsVal (List.takeWhile (fun x => !decide (x = '.')) ['1', '.', '0', '0']) = 1 :=
    by decide
  have h2 : digitsVal (List.dropWhile (fun x => !decide (x = '.')) ['1', '.', '0', '0']).tail = 0 :=
    by decide
  have h3 : (List.dropWhile (fun x => !decide (x = '.')) ['1', '.', '0', '0']).length = 3 :=
    by decide
  rw [parsePrice, if_pos (by decide)]
  norm_num [h1, h2, h3]

theorem eval_strip_599 : stripPrice "$5.99.99" = "5.99.99" := by decide

theorem eval_parse_599 : parsePrice "5.99.99" = none := by decide

theorem eval_is_change_some2_1 : is_change (some 2) 1 = true := by
  simp only [is_change, decide_eq_true_eq]
  rw [show ((2 : ℚ) - 1) = 1 from by norm_num, abs_one]
  norm_num

theorem eval_strip_tie : stripPrice "$10.5004" = "10.5004" := by decide

theorem eval_parse_tie : parsePrice "10.5004" = some ((105004 : ℚ) / 10000) := by
  have h1 : digitsVal (List.takeWhile (fun x => !decide (x = '.'))
      ['1', '0', '.', '5', '0', '0', '4']) = 10 := by decide
  have h2 : digitsVal (List.dropWhile (fun x => !decide (x = '.'))
      ['1', '0', '.', '5', '0', '0', '4']).tail = 5004 := by decide
  have h3 : (List.dropWhile (fun x => !decide (x = '.'))
      ['1', '0', '.', '5', '0', '0', '4']).length = 5 := by decide
  rw [parsePrice, if_pos (by decide)]
  norm_num [h1, h2, h3]

theorem eval_is_change_tie : is_change (some 10) ((105004 : ℚ) / 10000) = true := by
  simp only [is_change, decide_eq_true_eq]
  rw [show ((10 : ℚ) - 105004 / 10000) = -(5004 / 10000) from by norm_num, abs_neg,
    abs_of_nonneg (by norm_num : (0 : ℚ) ≤ 5004 / 10000)]
  norm_num

/-- C1 (amended): for each (location, item) pair the persisted observations
are strictly increasing in date and adjacent prices differ by at least
0.001 (the first observation of a pair is unconstrained). Every run
preserves this invariant — and with it the claimed date-ordered price
separation — provided the registered store ids are distinct (they are the
table's key) and every persisted observation is dated strictly before the
run date. The strictness requirements are forced: sqlite leaves the order
of equal-date rows under `ORDER BY scrape_date DESC LIMIT 1` unspecified,
and the engine in use reads back the first-inserted tied row, which the
date-tie counterexample below turns into adjacent prices 0.0004 apart. -/
theorem run_preserves_price_invariant (fetch : Nat → FetchOutcome) (today : Nat) (db : DB)
    (hids : (db.stores.map Prod.fst).Nodup)
    (hInv : StrictPriceInvariant db.prices)
    (hD : ∀ r ∈ db.prices, r.date < today) :
    StrictPriceInvariant (runAll fetch today db).prices ∧
    PriceInvariant (runAll fetch today db).prices := by
  have hnd : (get_stores_to_scrape db).Nodup :=
    ((List.perm_insertionSort (· ≤ ·) (db.stores.map Prod.fst)).nodup_iff).mpr hids
  have key : ∀ ids : List Nat, ids.Nodup →
      StrictPriceInvariant ((if ids = [] then db
        else (ids.foldl (runStore fetch today) ⟨db, []⟩).db)).prices := by
    intro ids hnd'
    split
    · exact hInv
    · have hv : visiblePrices ⟨db, []⟩ = db.prices := by
        simp [visiblePrices, pendingInserts]
      have h0 : RunInv today [] ⟨db, []⟩ := by
        refine ⟨?_, ?_, ?_⟩
        · show StrictPriceInvariant (visiblePrices ⟨db, []⟩)
          rw [hv]; exact hInv
        · show ∀ r ∈ visiblePrices ⟨db, []⟩, r.date ≤ today
          rw [hv]; exact fun r hr => le_of_lt (hD r hr)
        · show ∀ r ∈ visiblePrices ⟨db, []⟩, r.date = today → r.store ∈ ([] : List Nat)
          rw [hv]; exact fun r hr hd => absurd hd (Nat.ne_of_lt (hD r hr))
      obtain ⟨pr, hrun⟩ := runInv_foldl fetch today ids [] ⟨db, []⟩ hnd'
        (fun i _ => List.not_mem_nil i) h0
      intro s it
      have h2 := hrun.1 s it
      rw [committed_app_visible, pairRows_append] at h2
      exact h2.left_of_append
  have hstrict : StrictPriceInvariant (runAll fetch today db).prices :=
    key (get_stores_to_scrape db) hnd
  exact ⟨hstrict, strict_implies_price_invariant hstrict⟩

theorem run_preserves_price_invariant_witness :
    StrictPriceInvariant (runAll cx1Fetch 5 ⟨[(1, none)], []⟩).prices ∧
    PriceInvariant (runAll cx1Fetch 5 ⟨[(1, none)], []⟩).prices := by
  apply run_preserves_price_invariant
  · decide
  · intro s it
    simp [pairRows]
  · intro r hr
    simp at hr

/-- C1 (counterexample): two stores satisfying the claimed invariant that a
run breaks. First, `cx1DB`: its (1, "Taco") history is [price 1 at date 1,
price 2 at date 300], so a run on date 100 checks its candidate (price 1)
against the latest-dated price 2, inserts it, and the date-ordered history
[1, 1, 2] has two adjacent equal prices. Second, `cxTieDB`: its history
holds prices 10 then 10.5 on the same date 50 — as two same-day runs
produce — and `ORDER BY scrape_date DESC LIMIT 1` reads back the
first-inserted tied row 10; a run on date 100 therefore accepts the
candidate 10.5004 (|10 − 10.5004| ≥ 0.001) although it is only 0.0004 away
from the adjacent persisted price 10.5. The second store even has all its
dates strictly before the run date, so only per-pair strictly-increasing
dates rule the failure out. -/
theorem price_invariant_not_preserved_cx :
    (PriceInvariant cx1DB.prices ∧
     ¬ PriceInvariant (runAll cx1Fetch 100 cx1DB).prices) ∧
    (PriceInvariant cxTieDB.prices ∧
     (∀ r ∈ cxTieDB.prices, r.date < 100) ∧
     ¬ PriceInvariant (runAll cxTieFetch 100 cxTieDB).prices) := by
  have e6 : processCandidate 100 1 ⟨⟨cx1DB, []⟩, [], 0, 0⟩ "Taco" "$1.00" =
      .ok ⟨⟨cx1DB, [.insertPrice ⟨1, "Taco", 1, 100⟩]⟩, ["Taco"], 1, 1⟩ := by
    have e4 : get_latest_price ⟨cx1DB, []⟩ 1 "Taco" = some 2 := by
      simp [get_latest_price, visiblePrices, pendingInserts, cx1DB, latestUpd]
    simp [processCandidate, eval_excluded_Taco, eval_strip_100, eval_parse_100, e4,
      eval_is_change_some2_1, execute]
  have e9 : runAll cx1Fetch 100 cx1DB =
      ⟨[(1, some 100)],
       [⟨1, "Taco", 1, 1⟩, ⟨1, "Taco", 2, 300⟩, ⟨1, "Taco", 1, 100⟩]⟩ := by
    have e8 : runStore cx1Fetch 100 ⟨cx1DB, []⟩ 1 =
        ⟨⟨[(1, some 100)],
          [⟨1, "Taco", 1, 1⟩, ⟨1, "Taco", 2, 300⟩, ⟨1, "Taco", 1, 100⟩]⟩, []⟩ := by
      simp only [runStore, cx1Fetch, List.flatten, List.append_nil, processList, e6]
      simp [commit, execute, applyOp, cx1DB]
    have hids : get_stores_to_scrape cx1DB = [1] := by decide
    simp only [runAll, hids, List.foldl_cons, List.foldl_nil]
    rw [if_neg (by decide), e8]
  have e6t : processCandidate 100 1 ⟨⟨cxTieDB, []⟩, [], 0, 0⟩ "Taco" "$10.5004" =
      .ok ⟨⟨cxTieDB, [.insertPrice ⟨1, "Taco", 105004 / 10000, 100⟩]⟩, ["Taco"], 1, 1⟩ := by
    have e4t : get_latest_price ⟨cxTieDB, []⟩ 1 "Taco" = some 10 := by
      simp [get_latest_price, visiblePrices, pendingInserts, cxTieDB, latestUpd]
    simp [processCandidate, eval_excluded_Taco, eval_strip_tie, eval_parse_tie, e4t,
      eval_is_change_tie, execute]
  have e9t : runAll cxTieFetch 100 cxTieDB =
      ⟨[(1, some 100)],
       [⟨1, "Taco", 10, 50⟩, ⟨1, "Taco", 21 / 2, 50⟩,
        ⟨1, "Taco", 105004 / 10000, 100⟩]⟩ := by
    have e8t : runStore cxTieFetch 100 ⟨cxTieDB, []⟩ 1 =
        ⟨⟨[(1, some 100)],
          [⟨1, "Taco", 10, 50⟩, ⟨1, "Taco", 21 / 2, 50⟩,
           ⟨1, "Taco", 105004 / 10000, 100⟩]⟩, []⟩ := by
      simp only [runStore, cxTieFetch, List.flatten, List.append_nil, processList, e6t]
      simp [commit, execute, applyOp, cxTieDB]
    have hids : get_stores_to_scrape cxTieDB = [1] := by decide
    simp only [runAll, hids, List.foldl_cons, List.foldl_nil]
    rw [if_neg (by decide), e8t]
  refine ⟨⟨?_, ?_⟩, ?_, ?_, ?_⟩
  · intro s it
    by_cases h : 1 = s ∧ "Taco" = it
    · obtain ⟨rfl, rfl⟩ := h
      have hp : pairRows cx1DB.prices 1 "Taco" = cx1DB.prices := by
        simp [pairRows, cx1DB]
      rw [hp]
      refine List.chain'_cons.mpr ⟨⟨by norm_num, ?_⟩, List.chain'_singleton _⟩
      show (1 : ℚ) / 1000 ≤ |(1 : ℚ) - 2|
      rw [show ((1 : ℚ) - 2) = -1 from by norm_num, abs_neg, abs_one]
      norm_num
    · have hp : pairRows cx1DB.prices s it = [] := by
        simp only [cx1DB, pairRows, List.filter_cons, List.filter_nil, decide_eq_true_eq]
        rw [if_neg h, if_neg h]
      rw [hp]
      exact List.chain'_nil
  · intro h
    have h2 := h 1 "Taco"
    rw [e9] at h2
    have hp : pairRows
        [(⟨1, "Taco", 1, 1⟩ : Row), ⟨1, "Taco", 2, 300⟩, ⟨1, "Taco", 1, 100⟩] 1 "Taco" =
        [⟨1, "Taco", 1, 1⟩, ⟨1, "Taco", 2, 300⟩, ⟨1, "Taco", 1, 100⟩] := by
      simp [pairRows]
    rw [hp] at h2
    have hbad := (List.chain'_cons.mp (List.chain'_cons.mp h2).2).1.1
    simp at hbad
  · intro s it
    by_cases h : 1 = s ∧ "Taco" = it
    · obtain ⟨rfl, rfl⟩ := h
      have hp : pairRows cxTieDB.prices 1 "Taco" = cxTieDB.prices := by
        simp [pairRows, cxTieDB]
      rw [hp]
      refine List.chain'_cons.mpr ⟨⟨by norm_num, ?_⟩, List.chain'_singleton _⟩
      show (1 : ℚ) / 1000 ≤ |(10 : ℚ) - 21 / 2|
      rw [show ((10 : ℚ) - 21 / 2) = -(1 / 2) from by norm_num, abs_neg,
        abs_of_nonneg (by norm_num : (0 : ℚ) ≤ 1 / 2)]
      norm_num
    · have hp : pairRows cxTieDB.prices s it = [] := by
        simp only [cxTieDB, pairRows, List.filter_cons, List.filter_nil, decide_eq_true_eq]
        rw [if_neg h, if_neg h]
      rw [hp]
      exact List.chain'_nil
  · intro r hr
    simp only [cxTieDB, List.mem_cons, List.not_mem_nil, or_false] at hr
    rcases hr with rfl | rfl <;> decide
  · intro h
    have h2 := h 1 "Taco"
    rw [e9t] at h2
    have hp : pairRows
        [(⟨1, "Taco", 10, 50⟩ : Row), ⟨1, "Taco", 21 / 2, 50⟩,
         ⟨1, "Taco", 105004 / 10000, 100⟩] 1 "Taco" =
        [⟨1, "Taco", 10, 50⟩, ⟨1, "Taco", 21 / 2, 50⟩,
         ⟨1, "Taco", 105004 / 10000, 100⟩] := by
      simp [pairRows]
    rw [hp] at h2
    have hbad : (1 : ℚ) / 1000 ≤ |(21 : ℚ) / 2 - 105004 / 10000| :=
      (List.chain'_cons.mp (List.chain'_cons.mp h2).2).1.2
    rw [show ((21 : ℚ) / 2 - 105004 / 10000) = -(1 / 2500) from by norm_num, abs_neg,
      abs_of_nonneg (by norm_num : (0 : ℚ) ≤ 1 / 2500)] at hbad
    norm_num at hbad

/-- C4: the change decision is true exactly when the previous price is
absent or differs from the candidate by at least 0.001; in particular it is
false on an identical price, true at distance 0.002, false at distance
0.0005. -/
theorem is_change_spec :
    (∀ c : ℚ, is_change none c = true) ∧
    (∀ p c : ℚ, is_change (some p) c = decide ((1 : ℚ) / 1000 ≤ |p - c|)) ∧
    (∀ p : ℚ, is_change (some p) p = false) ∧
    (∀ p : ℚ, is_change (some p) (p + 2 / 1000) = true) ∧
    (∀ p : ℚ, is_change (some p) (p + 5 / 10000) = false) := by
  refine ⟨fun c => rfl, fun p c => rfl, fun p => ?_, fun p => ?_, fun p => ?_⟩
  · simp only [is_change, decide_eq_false_iff_not, not_le, sub_self, abs_zero]
    norm_num
  · simp only [is_change, decide_eq_true_eq]
    rw [show p - (p + 2 / 1000) = -(2 / 1000) from by ring, abs_neg,
      abs_of_nonneg (by norm_num : (0 : ℚ) ≤ 2 / 1000)]
    norm_num
  · simp only [is_change, decide_eq_false_iff_not, not_le]
    rw [show p - (p + 5 / 10000) = -(5 / 10000) from by ring, abs_neg,
      abs_of_nonneg (by norm_num : (0 : ℚ) ≤ 5 / 10000)]
    norm_num

/-- C5: the price parser keeps only digits and dots, so "$1,234.56" strips
to "1234.56" and parses to 1234.56, "Free" strips to the empty string, and
a candidate whose stripped price text is empty is skipped with only the
processed counter advanced. -/
theorem price_parsing_spec :
    stripPrice "$1,234.56" = "1234.56" ∧
    parsePrice "1234.56" = some (1234.56 : ℚ) ∧
    stripPrice "Free" = "" ∧
    (∀ today s st n p, excludedItem n = false → stripPrice p = "" →
      processCandidate today s st n p =
        .ok { st with items_processed := st.items_processed + 1 }) := by
  refine ⟨by decide, ?_, by decide, ?_⟩
  · have h1 : digitsVal (List.takeWhile (fun x => !decide (x = '.'))
        ['1', '2', '3', '4', '.', '5', '6']) = 1234 := by decide
    have h2 : digitsVal (List.dropWhile (fun x => !decide (x = '.'))
        ['1', '2', '3', '4', '.', '5', '6']).tail = 56 := by decide
    have h3 : (List.dropWhile (fun x => !decide (x = '.'))
        ['1', '2', '3', '4', '.', '5', '6']).length = 3 := by decide
    rw [parsePrice, if_pos (by decide)]
    norm_num [h1, h2, h3]
  · intro today s st n p hex hstrip
    simp [processCandidate, hex, hstrip]

theorem price_parsing_spec_witness :
    processCandidate 7 1 ⟨⟨⟨[], []⟩, []⟩, [], 0, 0⟩ "Taco" "Free" =
      .ok ⟨⟨⟨[], []⟩, []⟩, [], 1, 0⟩ :=
  price_parsing_spec.2.2.2 7 1 ⟨⟨⟨[], []⟩, []⟩, [], 0, 0⟩ "Taco" "Free"
    (by decide) (by decide)

/-- C6: the item filter excludes a name exactly when its lowering ends with
one of the configured suffixes; "Crunchy Taco Box" is excluded and
"Crunchy Taco" is included. -/
theorem item_filter_spec :
    excludedItem "Crunchy Taco Box" = true ∧
    excludedItem "Crunchy Taco" = false ∧
    ∀ n, excludedItem n = true ↔
      ∃ suf ∈ EXCLUDED_ITEM_SUFFIXES, lowerEndsWith n suf = true := by
  refine ⟨by decide, by decide, fun n => ?_⟩
  simp [excludedItem, List.any_eq_true]

/-- C7: a location whose crawl raises or returns no pages causes no writes
and no metadata update — the connection is exactly as it was — and the run
continues with the remaining locations. -/
theorem fetch_failure_no_writes (fetch : Nat → FetchOutcome) (today : Nat) (conn : Conn)
    (s : Nat) (rest : List Nat)
    (h : fetch s = .fetchError ∨ fetch s = .pages []) :
    runStore fetch today conn s = conn ∧
    List.foldl (runStore fetch today) conn (s :: rest) =
      List.foldl (runStore fetch today) conn rest := by
  have h1 : runStore fetch today conn s = conn := by
    rcases h with h | h <;> simp [runStore, h]
  exact ⟨h1, by rw [List.foldl_cons, h1]⟩

theorem fetch_failure_no_writes_witness :
    runStore (fun _ => FetchOutcome.fetchError) 7 ⟨⟨[], []⟩, []⟩ 1 = ⟨⟨[], []⟩, []⟩ ∧
    List.foldl (runStore (fun _ => FetchOutcome.fetchError) 7) ⟨⟨[], []⟩, []⟩ [1] =
      List.foldl (runStore (fun _ => FetchOutcome.fetchError) 7) ⟨⟨[], []⟩, []⟩ [] :=
  fetch_failure_no_writes (fun _ => FetchOutcome.fetchError) 7 ⟨⟨[], []⟩, []⟩ 1 []
    (Or.inl rfl)

/-- C8: a run loads the registered store ids in ascending (strictly, since
ids are unique) order, processes exactly the registered ids once each, and
an empty registry ends the run with the store untouched. -/
theorem run_order_spec (fetch : Nat → FetchOutcome) (today : Nat) (db : DB)
    (hnd : (db.stores.map Prod.fst).Nodup) :
    List.Sorted (· < ·) (get_stores_to_scrape db) ∧
    (∀ x ∈ db.stores.map Prod.fst, (get_stores_to_scrape db).count x = 1) ∧
    (∀ x ∈ get_stores_to_scrape db, x ∈ db.stores.map Prod.fst) ∧
    (db.stores = [] → runAll fetch today db = db) := by
  have hperm : List.Perm (get_stores_to_scrape db) (db.stores.map Prod.fst) :=
    List.perm_insertionSort _ _
  have hsorted : List.Sorted (· ≤ ·) (get_stores_to_scrape db) :=
    List.sorted_insertionSort _ _
  refine ⟨hsorted.lt_of_le (hperm.nodup_iff.mpr hnd), fun x hx => ?_, fun x hx => ?_, fun h => ?_⟩
  · rw [hperm.count_eq]
    exact List.count_eq_one_of_mem hnd hx
  · exact hperm.mem_iff.mp hx
  · have hids : get_stores_to_scrape db = [] := by
      simp [get_stores_to_scrape, h]
    simp [runAll, hids]

theorem run_order_spec_witness :
    List.Sorted (· < ·) (get_stores_to_scrape ⟨[(2, none), (1, none)], []⟩) ∧
    (∀ x ∈ ((⟨[(2, none), (1, none)], []⟩ : DB)).stores.map Prod.fst,
      (get_stores_to_scrape ⟨[(2, none), (1, none)], []⟩).count x = 1) ∧
    (∀ x ∈ get_stores_to_scrape ⟨[(2, none), (1, none)], []⟩,
      x ∈ ((⟨[(2, none), (1, none)], []⟩ : DB)).stores.map Prod.fst) ∧
    (((⟨[(2, none), (1, none)], []⟩ : DB)).stores = [] →
      runAll (fun _ => FetchOutcome.fetchError) 7 ⟨[(2, none), (1, none)], []⟩ =
        ⟨[(2, none), (1, none)], []⟩) :=
  run_order_spec (fun _ => FetchOutcome.fetchError) 7 ⟨[(2, none), (1, none)], []⟩ (by decide)

/-- C9: the extractor's price sub-pattern accepts "$5.99.99"; it strips to
the non-empty "5.99.99", which `float` rejects, so the candidate is not a
silent skip: processing raises and the per-location handler abandons the
whole location, leaving the connection untouched. -/
theorem multi_dot_price_aborts_location :
    priceTokenMatches "$5.99.99" = true ∧
    stripPrice "$5.99.99" = "5.99.99" ∧
    ("5.99.99" : String) ≠ "" ∧
    parsePrice "5.99.99" = none ∧
    (∀ today s st n, excludedItem n = false →
      processCandidate today s st n "$5.99.99" =
        .error { st with items_processed := st.items_processed + 1 }) ∧
    (∀ fetch today conn s n, excludedItem n = false →
      fetch s = FetchOutcome.pages [[(n, "$5.99.99")]] →
      runStore fetch today conn s = conn) := by
  have hpc : ∀ today s st n, excludedItem n = false →
      processCandidate today s st n "$5.99.99" =
        .error { st with items_processed := st.items_processed + 1 } := by
    intro today s st n hex
    simp [processCandidate, hex, eval_strip_599, eval_parse_599]
  refine ⟨by decide, eval_strip_599, by decide, eval_parse_599, hpc, ?_⟩
  intro fetch today conn s n hex hf
  simp only [runStore, hf]
  rw [if_neg (List.cons_ne_nil _ _)]
  have hflat : ([[(n, "$5.99.99")]] : List (List (String × String))).flatten =
      [(n, "$5.99.99")] := by simp
  rw [hflat, processList, hpc today s ⟨conn, [], 0, 0⟩ n hex]

theorem multi_dot_price_aborts_location_witness :
    processCandidate 7 1 ⟨⟨⟨[], []⟩, []⟩, [], 0, 0⟩ "Nacho Fries" "$5.99.99" =
      .error ⟨⟨⟨[], []⟩, []⟩, [], 1, 0⟩ ∧
    runStore (fun _ => FetchOutcome.pages [[("Nacho Fries", "$5.99.99")]]) 7
      ⟨⟨[], []⟩, []⟩ 1 = ⟨⟨[], []⟩, []⟩ :=
  ⟨multi_dot_price_aborts_location.2.2.2.2.1 7 1 ⟨⟨⟨[], []⟩, []⟩, [], 0, 0⟩ "Nacho Fries"
      (by decide),
   multi_dot_price_aborts_location.2.2.2.2.2
      (fun _ => FetchOutcome.pages [[("Nacho Fries", "$5.99.99")]]) 7 ⟨⟨[], []⟩, []⟩ 1
      "Nacho Fries" (by decide) rfl⟩

theorem processCandidate_599_error (today s : Nat) (st : LoopState) (n : String)
    (hex : excludedItem n = false) :
    processCandidate today s st n "$5.99.99" =
      .error { st with items_processed := st.items_processed + 1 } := by
  simp [processCandidate, hex, eval_strip_599, eval_parse_599]

theorem processCandidate_conn_shape (today s : Nat) (st : LoopState) (n p : String) :
    (outState (processCandidate today s st n p)).conn = st.conn ∨
    ∃ r : Row, (outState (processCandidate today s st n p)).conn =
      execute st.conn (.insertPrice r) := by
  rcases processCandidate_cases today s st n p with
    ⟨heq, _⟩ | ⟨heq, _⟩ | ⟨v, _, _, _, _, ⟨_, heq⟩ | ⟨_, heq⟩⟩
  · left; rw [heq]; rfl
  · left; rw [heq]; rfl
  · right; refine ⟨⟨s, n, v, today⟩, ?_⟩; rw [heq]; rfl
  · left; rw [heq]; rfl

theorem processList_cons_ok {today s : Nat} {st st' : LoopState} {m q : String}
    {rest : List (String × String)}
    (h : processCandidate today s st m q = .ok st') :
    processList today s st ((m, q) :: rest) = processList today s st' rest := by
  simp [processList, h]

theorem processList_cons_error {today s : Nat} {st st' : LoopState} {m q : String}
    {rest : List (String × String)}
    (h : processCandidate today s st m q = .error st') :
    processList today s st ((m, q) :: rest) = .error st' := by
  simp [processList, h]

theorem processList_pending_shape (today s : Nat) (cs : List (String × String))
    (st : LoopState) :
    (outState (processList today s st cs)).conn.db = st.conn.db ∧
    ∃ rs : List Row, (outState (processList today s st cs)).conn.pending =
      st.conn.pending ++ rs.map Op.insertPrice := by
  induction cs generalizing st with
  | nil => exact ⟨rfl, [], by simp [processList, outState]⟩
  | cons c rest ih =>
    obtain ⟨m, q⟩ := c
    have hshape := processCandidate_conn_shape today s st m q
    rcases hc : processCandidate today s st m q with st' | st'
    · rw [hc] at hshape
      simp only [outState] at hshape
      rw [processList_cons_error hc]
      simp only [outState]
      rcases hshape with hsame | ⟨r, hins⟩
      · exact ⟨by rw [hsame], [], by simp [hsame]⟩
      · exact ⟨by rw [hins]; rfl, [r], by simp [hins, execute]⟩
    · rw [hc] at hshape
      simp only [outState] at hshape
      rw [processList_cons_ok hc]
      rcases hshape with hsame | ⟨r, hins⟩
      · refine ⟨by rw [(ih st').1, hsame], ?_⟩
        obtain ⟨rs, hrs⟩ := (ih st').2
        exact ⟨rs, by rw [hrs, hsame]⟩
      · refine ⟨by rw [(ih st').1, hins]; rfl, ?_⟩
        obtain ⟨rs, hrs⟩ := (ih st').2
        refine ⟨r :: rs, ?_⟩
        rw [hrs, hins]
        simp [execute]

theorem processList_cx2_eval :
    processList 100 1 ⟨⟨cx2DB, []⟩, [], 0, 0⟩ [("Taco", "$1.00"), ("Burrito", "$5.99.99")] =
      .error ⟨⟨cx2DB, [.insertPrice ⟨1, "Taco", 1, 100⟩]⟩, ["Taco"], 2, 1⟩ := by
  have hlat : get_latest_price ⟨cx2DB, []⟩ 1 "Taco" = none := by
    simp [get_latest_price, visiblePrices, pendingInserts, cx2DB]
  have pc1 : processCandidate 100 1 ⟨⟨cx2DB, []⟩, [], 0, 0⟩ "Taco" "$1.00" =
      .ok ⟨⟨cx2DB, [.insertPrice ⟨1, "Taco", 1, 100⟩]⟩, ["Taco"], 1, 1⟩ := by
    simp [processCandidate, eval_excluded_Taco, eval_strip_100, eval_parse_100, hlat,
      is_change, execute]
  have pc2 := processCandidate_599_error 100 1
    (⟨⟨cx2DB, [.insertPrice ⟨1, "Taco", 1, 100⟩]⟩, ["Taco"], 1, 1⟩ : LoopState)
    "Burrito" eval_excluded_Burrito
  simp only [processList, pc1, pc2]

theorem processList_cx3_eval :
    processList 100 1 ⟨⟨cx3DB, []⟩, [], 0, 0⟩ [("Taco", "$1.00"), ("Burrito", "$5.99.99")] =
      .error ⟨⟨cx3DB, [.insertPrice ⟨1, "Taco", 1, 100⟩]⟩, ["Taco"], 2, 1⟩ := by
  have hlat : get_latest_price ⟨cx3DB, []⟩ 1 "Taco" = none := by
    simp [get_latest_price, visiblePrices, pendingInserts, cx3DB]
  have pc1 : processCandidate 100 1 ⟨⟨cx3DB, []⟩, [], 0, 0⟩ "Taco" "$1.00" =
      .ok ⟨⟨cx3DB, [.insertPrice ⟨1, "Taco", 1, 100⟩]⟩, ["Taco"], 1, 1⟩ := by
    simp [processCandidate, eval_excluded_Taco, eval_strip_100, eval_parse_100, hlat,
      is_change, execute]
  have pc2 := processCandidate_599_error 100 1
    (⟨⟨cx3DB, [.insertPrice ⟨1, "Taco", 1, 100⟩]⟩, ["Taco"], 1, 1⟩ : LoopState)
    "Burrito" eval_excluded_Burrito
  simp only [processList, pc1, pc2]

/-- C2 (failing input): store 1's extraction raises after one INSERT was
executed; the claim says that row is never committed. But the INSERT is
left pending on the shared connection and store 2's commit then persists
it: the row for the failed store 1 is in the final committed `prices`,
while store 1's metadata (still `none`) shows its processing failed. -/
theorem partial_insert_committed_by_next_store :
    (⟨1, "Taco", 1, 100⟩ : Row) ∈ (runAll cx2Fetch 100 cx2DB).prices ∧
    (runAll cx2Fetch 100 cx2DB).stores = [(1, none), (2, some 100)] := by
  have hrs1 : runStore cx2Fetch 100 ⟨cx2DB, []⟩ 1 =
      ⟨cx2DB, [.insertPrice ⟨1, "Taco", 1, 100⟩]⟩ := by
    simp only [runStore, show cx2Fetch 1 =
      .pages [[("Taco", "$1.00"), ("Burrito", "$5.99.99")]] from rfl]
    rw [if_neg (List.cons_ne_nil _ _)]
    have hflat : ([[("Taco", "$1.00"), ("Burrito", "$5.99.99")]] :
        List (List (String × String))).flatten =
        [("Taco", "$1.00"), ("Burrito", "$5.99.99")] := by simp
    rw [hflat, processList_cx2_eval]
  have hrs2 : runStore cx2Fetch 100 ⟨cx2DB, [.insertPrice ⟨1, "Taco", 1, 100⟩]⟩ 2 =
      ⟨⟨[(1, none), (2, some 100)], [⟨1, "Taco", 1, 100⟩]⟩, []⟩ := by
    simp only [runStore, show cx2Fetch 2 = .pages [[]] from rfl]
    rw [if_neg (List.cons_ne_nil _ _)]
    have hflat : ([[]] : List (List (String × String))).flatten = [] := by simp
    rw [hflat]
    simp [processList, commit, execute, applyOp, cx2DB]
  have e : runAll cx2Fetch 100 cx2DB =
      ⟨[(1, none), (2, some 100)], [⟨1, "Taco", 1, 100⟩]⟩ := by
    have hids : get_stores_to_scrape cx2DB = [1, 2] := by decide
    simp only [runAll, hids, List.foldl_cons, List.foldl_nil]
    rw [if_neg (by decide), hrs1, hrs2]
  rw [e]
  exact ⟨by simp, rfl⟩

/-- C3 (counterexample): store 1's fetch succeeds and its extraction raises
after one INSERT was executed (visible as the pending insert in the raise
state), yet the final database is exactly the initial one: the
last-processed date was NOT updated and the pending write was NOT
committed, contrary to the claim that both happen after a post-fetch
failure. -/
theorem extraction_failure_commits_nothing_cx :
    processList 100 1 ⟨⟨cx3DB, []⟩, [], 0, 0⟩
        [("Taco", "$1.00"), ("Burrito", "$5.99.99")] =
      .error ⟨⟨cx3DB, [.insertPrice ⟨1, "Taco", 1, 100⟩]⟩, ["Taco"], 2, 1⟩ ∧
    runAll cx3Fetch 100 cx3DB = cx3DB := by
  refine ⟨processList_cx3_eval, ?_⟩
  have hrs : runStore cx3Fetch 100 ⟨cx3DB, []⟩ 1 =
      ⟨cx3DB, [.insertPrice ⟨1, "Taco", 1, 100⟩]⟩ := by
    simp only [runStore, show cx3Fetch 1 =
      .pages [[("Taco", "$1.00"), ("Burrito", "$5.99.99")]] from rfl]
    rw [if_neg (List.cons_ne_nil _ _)]
    have hflat : ([[("Taco", "$1.00"), ("Burrito", "$5.99.99")]] :
        List (List (String × String))).flatten =
        [("Taco", "$1.00"), ("Burrito", "$5.99.99")] := by simp
    rw [hflat, processList_cx3_eval]
  have hids : get_stores_to_scrape cx3DB = [1] := by decide
  simp only [runAll, hids, List.foldl_cons, List.foldl_nil]
  rw [if_neg (by decide), hrs]

/-- C3 (amended): a location whose fetch succeeds and whose extraction then
raises has neither its last-processed date updated nor its pending writes
committed by its own processing: the committed state is unchanged and only
insert statements remain pending (uncommitted) on the connection; a
location whose fetch fails leaves the connection exactly as it was. -/
theorem extraction_failure_leaves_committed_state :
    (∀ fetch today conn s ps st', fetch s = FetchOutcome.pages ps → ps ≠ [] →
      processList today s ⟨conn, [], 0, 0⟩ ps.flatten = .error st' →
      runStore fetch today conn s = st'.conn ∧ st'.conn.db = conn.db ∧
      ∃ rs : List Row, st'.conn.pending = conn.pending ++ rs.map Op.insertPrice) ∧
    (∀ fetch today conn s,
      (fetch s = FetchOutcome.fetchError ∨ fetch s = FetchOutcome.pages []) →
      runStore fetch today conn s = conn) := by
  constructor
  · intro fetch today conn s ps st' hf hne herr
    have h1 : runStore fetch today conn s = st'.conn := by
      simp only [runStore, hf]
      rw [if_neg hne, herr]
    have h2 := processList_pending_shape today s ps.flatten ⟨conn, [], 0, 0⟩
    rw [herr] at h2
    exact ⟨h1, h2.1, h2.2⟩
  · intro fetch today conn s h
    rcases h with h | h <;> simp [runStore, h]

theorem extraction_failure_leaves_committed_state_witness :
    runStore cx3Fetch 100 ⟨cx3DB, []⟩ 1 =
      ⟨cx3DB, [Op.insertPrice ⟨1, "Taco", 1, 100⟩]⟩ ∧
    (⟨cx3DB, [Op.insertPrice ⟨1, "Taco", 1, 100⟩]⟩ : Conn).db = (⟨cx3DB, []⟩ : Conn).db ∧
    ∃ rs : List Row, (⟨cx3DB, [Op.insertPrice ⟨1, "Taco", 1, 100⟩]⟩ : Conn).pending =
      (⟨cx3DB, []⟩ : Conn).pending ++ rs.map Op.insertPrice := by
  have h := extraction_failure_leaves_committed_state.1 cx3Fetch 100 ⟨cx3DB, []⟩ 1
    [[("Taco", "$1.00"), ("Burrito", "$5.99.99")]]
    ⟨⟨cx3DB, [.insertPrice ⟨1, "Taco", 1, 100⟩]⟩, ["Taco"], 2, 1⟩
    rfl (List.cons_ne_nil _ _) (by simpa using processList_cx3_eval)
  exact h

theorem countFor_append_single (v : List Row) (r : Row) (s : Nat) (n : String) :
    countFor (v ++ [r]) s n =
      countFor v s n + (if r.store = s ∧ r.item = n then 1 else 0) := by
  by_cases h : r.store = s ∧ r.item = n
  · simp [countFor, pairRows_append, pairRows, h]
  · simp [countFor, pairRows_append, pairRows, h]

theorem processCandidate_seen_count (today s : Nat) (st : LoopState) (m q n : String)
    (hseen : n ∈ st.seen) :
    countFor (visiblePrices (outState (processCandidate today s st m q)).conn) s n =
      countFor (visiblePrices st.conn) s n ∧
    n ∈ (outState (processCandidate today s st m q)).seen := by
  rcases processCandidate_cases today s st m q with
    ⟨heq, _⟩ | ⟨heq, _⟩ | ⟨v, _, _, _, hnot, ⟨_, heq⟩ | ⟨_, heq⟩⟩
  · rw [heq]; exact ⟨rfl, hseen⟩
  · rw [heq]; exact ⟨rfl, hseen⟩
  · rw [heq]
    have hmn : m ≠ n := fun hh => hnot (hh ▸ hseen)
    constructor
    · show countFor (visiblePrices (execute st.conn (.insertPrice ⟨s, m, v, today⟩))) s n = _
      rw [visible_execute_insert, countFor_append_single]
      simp [hmn]
    · show n ∈ m :: st.seen
      exact List.mem_cons_of_mem _ hseen
  · rw [heq]
    exact ⟨rfl, List.mem_cons_of_mem _ hseen⟩

theorem processCandidate_count_budget (today s : Nat) (st : LoopState) (m q n : String) :
    countFor (visiblePrices (outState (processCandidate today s st m q)).conn) s n +
      (if n ∈ (outState (processCandidate today s st m q)).seen then 0 else 1) ≤
    countFor (visiblePrices st.conn) s n + (if n ∈ st.seen then 0 else 1) := by
  rcases processCandidate_cases today s st m q with
    ⟨heq, _⟩ | ⟨heq, _⟩ | ⟨v, _, _, _, hnot, ⟨_, heq⟩ | ⟨_, heq⟩⟩
  · rw [heq]; exact le_refl _
  · rw [heq]; exact le_refl _
  · rw [heq]
    by_cases hmn : m = n
    · subst hmn
      show countFor (visiblePrices (execute st.conn (.insertPrice ⟨s, m, v, today⟩))) s m +
          (if m ∈ m :: st.seen then 0 else 1) ≤ _
      rw [visible_execute_insert, countFor_append_single]
      simp [hnot]
    · show countFor (visiblePrices (execute st.conn (.insertPrice ⟨s, m, v, today⟩))) s n +
          (if n ∈ m :: st.seen then 0 else 1) ≤ _
      rw [visible_execute_insert, countFor_append_single]
      have hnr : ¬((⟨s, m, v, today⟩ : Row).store = s ∧ (⟨s, m, v, today⟩ : Row).item = n) :=
        fun hh => hmn hh.2
      rw [if_neg hnr]
      have hmem : (n ∈ m :: st.seen) ↔ (n ∈ st.seen) := by
        constructor
        · intro hh
          rcases List.mem_cons.mp hh with hh | hh
          · exact absurd hh.symm hmn
          · exact hh
        · exact List.mem_cons_of_mem _
      simp [hmem]
  · rw [heq]
    show countFor (visiblePrices st.conn) s n + (if n ∈ m :: st.seen then 0 else 1) ≤ _
    have hle : (if n ∈ m :: st.seen then 0 else 1) ≤ (if n ∈ st.seen then (0 : Nat) else 1) := by
      by_cases hn : n ∈ st.seen
      · simp [hn, List.mem_cons_of_mem]
      · by_cases hn2 : n ∈ m :: st.seen
        · simp [hn2, hn]
        · simp [hn2, hn]
    exact Nat.add_le_add_left hle _

theorem processList_count_budget (today s : Nat) (cs : List (String × String))
    (st : LoopState) (n : String) :
    countFor (visiblePrices (outState (processList today s st cs)).conn) s n ≤
      countFor (visiblePrices st.conn) s n + (if n ∈ st.seen then 0 else 1) := by
  induction cs generalizing st with
  | nil => exact Nat.le_add_right _ _
  | cons c rest ih =>
    obtain ⟨m, q⟩ := c
    have hstep := processCandidate_count_budget today s st m q n
    rcases hc : processCandidate today s st m q with st' | st'
    · rw [hc] at hstep
      simp only [outState] at hstep
      rw [processList_cons_error hc]
      simp only [outState]
      omega
    · rw [hc] at hstep
      simp only [outState] at hstep
      rw [processList_cons_ok hc]
      have hrest := ih st'
      omega

theorem processList_count_seen (today s : Nat) (cs : List (String × String))
    (st : LoopState) (n : String) (hseen : n ∈ st.seen) :
    countFor (visiblePrices (outState (processList today s st cs)).conn) s n =
      countFor (visiblePrices st.conn) s n := by
  induction cs generalizing st with
  | nil => rfl
  | cons c rest ih =>
    obtain ⟨m, q⟩ := c
    have hstep := processCandidate_seen_count today s st m q n hseen
    rcases hc : processCandidate today s st m q with st' | st'
    · rw [hc] at hstep
      simp only [outState] at hstep
      rw [processList_cons_error hc]
      simp only [outState]
      exact hstep.1
    · rw [hc] at hstep
      simp only [outState] at hstep
      rw [processList_cons_ok hc]
      rw [ih st' hstep.2]
      exact hstep.1

/-- C10: dedup within one location: a filtered, parsed candidate whose name
is already in the per-location seen-set is skipped entirely (only the
processed counter moves) even if its price differs from the stored one; a
first such occurrence enters the seen-set whether or not the price changed,
before change detection matters; once seen, no further row for that
(store, name) is ever inserted in that location's processing; and a whole
location pass — whose seen-set starts empty — adds at most one row for any
(store, name) to the rows visible on the connection. -/
theorem dedup_spec :
    (∀ today s st (n p : String) (v : ℚ), excludedItem n = false →
      parsePrice (stripPrice p) = some v → n ∈ st.seen →
      processCandidate today s st n p =
        .ok { st with items_processed := st.items_processed + 1 }) ∧
    (∀ today s st (n p : String) (v : ℚ), excludedItem n = false →
      parsePrice (stripPrice p) = some v → n ∉ st.seen →
      ∃ st', processCandidate today s st n p = .ok st' ∧ st'.seen = n :: st.seen) ∧
    (∀ today s cs st (n : String), n ∈ st.seen →
      countFor (visiblePrices (outState (processList today s st cs)).conn) s n =
        countFor (visiblePrices st.conn) s n) ∧
    (∀ fetch today conn s (n : String),
      countFor (visiblePrices (runStore fetch today conn s)) s n ≤
        countFor (visiblePrices conn) s n + 1) := by
  refine ⟨?_, ?_, ?_, ?_⟩
  · intro today s st n p v hex hp hseen
    rcases processCandidate_cases today s st n p with
      ⟨heq, hcase⟩ | ⟨heq, _, hnone⟩ | ⟨w, _, _, _, hnot, _⟩
    · exact heq
    · rw [hp] at hnone
      exact absurd hnone (by simp)
    · exact absurd hseen hnot
  · intro today s st n p v hex hp hnotseen
    rcases processCandidate_cases today s st n p with
      ⟨heq, hcase⟩ | ⟨heq, _, hnone⟩ | ⟨w, _, _, _, _, ⟨_, heq⟩ | ⟨_, heq⟩⟩
    · rcases hcase with hc | hc | hc
      · rw [hex] at hc
        exact absurd hc (by simp)
      · rw [hc] at hp
        rw [parsePrice_empty] at hp
        exact absurd hp (by simp)
      · exact absurd hc hnotseen
    · rw [hp] at hnone
      exact absurd hnone (by simp)
    · exact ⟨_, heq, rfl⟩
    · exact ⟨_, heq, rfl⟩
  · intro today s cs st n hseen
    exact processList_count_seen today s cs st n hseen
  · intro fetch today conn s n
    rcases hf : fetch s with _ | ps
    · simp only [runStore, hf]
      exact Nat.le_add_right _ 1
    · simp only [runStore, hf]
      by_cases hps : ps = []
      · rw [if_pos hps]
        exact Nat.le_add_right _ 1
      · rw [if_neg hps]
        have h := processList_count_budget today s ps.flatten ⟨conn, [], 0, 0⟩ n
        rw [if_neg (List.not_mem_nil n)] at h
        rcases hpl : processList today s ⟨conn, [], 0, 0⟩ ps.flatten with st' | st'
        · rw [hpl] at h
          simp only [outState] at h
          exact h
        · rw [hpl] at h
          simp only [outState] at h
          rw [show visiblePrices (commit (execute st'.conn (.updateStore s today))) =
            visiblePrices st'.conn from by rw [visible_commit, visible_execute_update]]
          exact h

theorem dedup_spec_witness :
    processCandidate 7 1 ⟨⟨⟨[], []⟩, []⟩, ["Taco"], 0, 0⟩ "Taco" "$1.00" =
      .ok ⟨⟨⟨[], []⟩, []⟩, ["Taco"], 1, 0⟩ ∧
    (∃ st', processCandidate 7 1 ⟨⟨⟨[], []⟩, []⟩, [], 0, 0⟩ "Taco" "$1.00" = .ok st' ∧
      st'.seen = ["Taco"]) ∧
    countFor (visiblePrices
        (outState (processList 7 1 ⟨⟨⟨[], []⟩, []⟩, ["Taco"], 0, 0⟩
          [("Taco", "$1.00")])).conn) 1 "Taco" =
      countFor (visiblePrices ⟨⟨[], []⟩, []⟩) 1 "Taco" ∧
    countFor (visiblePrices
        (runStore (fun _ => FetchOutcome.pages [[("Taco", "$1.00"), ("Taco", "$2.00")]]) 7
          ⟨⟨[], []⟩, []⟩ 1)) 1 "Taco" ≤
      countFor (visiblePrices ⟨⟨[], []⟩, []⟩) 1 "Taco" + 1 := by
  have hp : parsePrice (stripPrice "$1.00") = some 1 := by
    rw [eval_strip_100]; exact eval_parse_100
  refine ⟨?_, ?_, ?_, ?_⟩
  · exact dedup_spec.1 7 1 ⟨⟨⟨[], []⟩, []⟩, ["Taco"], 0, 0⟩ "Taco" "$1.00" 1
      (by decide) hp (by decide)
  · exact dedup_spec.2.1 7 1 ⟨⟨⟨[], []⟩, []⟩, [], 0, 0⟩ "Taco" "$1.00" 1
      (by decide) hp (by decide)
  · exact dedup_spec.2.2.1 7 1 [("Taco", "$1.00")] ⟨⟨⟨[], []⟩, []⟩, ["Taco"], 0, 0⟩
      "Taco" (by decide)
  · exact dedup_spec.2.2.2 (fun _ => FetchOutcome.pages [[("Taco", "$1.00"), ("Taco", "$2.00")]])
      7 ⟨⟨[], []⟩, []⟩ 1 "Taco"

end Macrobell
